import Mathlib

/-!
Verification of the market-data refresh and watchlist cache subsystem of the
online-bank-saas repository (`server/market-service.ts` together with the
`marketData` and `watchedAssets` tables of `shared/schema.ts`).

The service is embedded shallowly: the persisted store is a pair of row
lists, the clock is a natural number of milliseconds advanced only by the
explicit `setTimeout` delays, and all external nondeterminism (the Finnhub
network responses and the `Math.random` sparkline source) is resolved by an
`Oracle` indexed by a per-call counter.  Every network call and every delay
is recorded in an event trace so that "performs no upstream fetch" and
"inserts an 1100 ms delay" become statements about the trace.
-/

namespace MarketService

/-- Record `FinnhubQuote` (`server/market-service.ts:7-16`): the raw quote payload.
Numeric fields are modelled as integers. -/
structure FinnhubQuote where
  c : Int
  d : Int
  dp : Int
  h : Int
  l : Int
  o : Int
  pc : Int
  t : Int
  deriving Repr, DecidableEq

/-- Record `FinnhubCompanyProfile` (`server/market-service.ts:18-31`). -/
structure FinnhubCompanyProfile where
  country : String
  currency : String
  exchange : String
  ipo : String
  marketCapitalization : Int
  name : String
  phone : String
  shareOutstanding : Int
  ticker : String
  weburl : String
  logo : String
  finnhubIndustry : String
  deriving Repr, DecidableEq

/-- One `{ symbol, name, sector }` entry of the static `EXCHANGE_STOCKS`
catalog (`server/market-service.ts:46-107`). -/
structure StockInfo where
  symbol : String
  name : String
  sector : String
  deriving Repr, DecidableEq

/-- A row of the `market_data` table (`shared/schema.ts`, `marketData`):
symbol is the unique key; decimal columns are integers here; the `uuid`
primary key is elided (no operation of the service reads it). -/
structure MarketRow where
  symbol : String
  name : String
  exchange : String
  price : Int
  change : Int
  changePercent : Int
  volume : String
  marketCap : Option Int
  previousClose : Int
  dayHigh : Int
  dayLow : Int
  currency : String
  sector : String
  lastUpdated : Nat
  sparklineData : List Int
  deriving Repr, DecidableEq

/-- A row of the `watched_assets` table (`shared/schema.ts`,
`watchedAssets`); the `uuid` primary key and the never-written alert
columns are elided. -/
structure WatchedRow where
  userId : String
  symbol : String
  name : Option String
  exchange : Option String
  assetType : String
  region : String
  isFavorite : Bool
  createdAt : Nat
  updatedAt : Nat
  deriving Repr, DecidableEq

/-- The optional `extraData` argument of `addWatchedAsset`
(`server/market-service.ts:295`). -/
structure ExtraData where
  exchange : Option String
  name : Option String
  assetType : Option String
  region : Option String
  deriving Repr, DecidableEq

/-- An observable external effect of the service: one Finnhub quote call,
one Finnhub profile call, or one `setTimeout` pause. -/
inductive NetEvent where
  | quoteCall (symbol : String)
  | profileCall (symbol : String)
  | delayMs (ms : Nat)
  deriving Repr, DecidableEq

/-- The world the service acts on: both tables, the clock (milliseconds),
the count of upstream round-trips issued so far (indexes the oracle), and
the trace of external effects in order. -/
structure W where
  marketDb : List MarketRow
  watchedDb : List WatchedRow
  time : Nat
  tick : Nat
  trace : List NetEvent
  deriving Repr, DecidableEq

/-- Resolves the program's nondeterminism: `quote`/`profile` give the
Finnhub responses of the k-th round-trip (`none` models a thrown fetch
error, resp. the `.catch(() => null)` of the profile call), `spark` gives
the `Math.random` sparkline points of the k-th round-trip. -/
structure Oracle where
  quote : Nat → String → Option FinnhubQuote
  profile : Nat → String → Option FinnhubCompanyProfile
  spark : Nat → List Int

/-- JavaScript `a || b` on an optional string: `undefined`/`null` and the
empty string are falsy. -/
def jsStr (a : Option String) (b : String) : String :=
  match a with
  | some s => if s = "" then b else s
  | none => b

/-- Does the character list start with the pattern? -/
def startsWithChars : List Char → List Char → Bool
  | _, [] => true
  | [], _ :: _ => false
  | c :: cs, p :: ps => c == p && startsWithChars cs ps

/-- Substring containment on character lists. -/
def containsChars : List Char → List Char → Bool
  | l, pat =>
    startsWithChars l pat ||
      match l with
      | [] => false
      | _ :: t => containsChars t pat

/-- JavaScript `s.includes(pat)`: substring containment. -/
def sIncludes (s pat : String) : Bool :=
  containsChars s.data pat.data

/-- Does the string end with the pattern (the "suffix" reading of an
exchange-suffixed symbol)? -/
def sEndsWith (s pat : String) : Bool :=
  startsWithChars s.data.reverse pat.data.reverse

/-- Splitting a character list at every occurrence of a separator
character (JavaScript `split` semantics: n separators give n+1 pieces). -/
def splitChars (sep : Char) : List Char → List (List Char)
  | [] => [[]]
  | c :: t =>
    match splitChars sep t with
    | [] => [[]]
    | h :: r => if c == sep then [] :: h :: r else (c :: h) :: r

/-- JavaScript `symbol.split('.')[1]`: the second piece, if any. -/
def splitDotSecond (s : String) : Option String :=
  ((splitChars '.' s.data).map (fun l => String.mk l))[1]?

/-- The static `EXCHANGE_STOCKS` registry (`server/market-service.ts:46-107`),
in source key order. -/
def EXCHANGE_STOCKS : List (String × List StockInfo) :=
  [ ("OL",
      [ ⟨"EQNR.OL", "Equinor ASA", "Energy"⟩,
        ⟨"DNB.OL", "DNB Bank ASA", "Financial Services"⟩,
        ⟨"TEL.OL", "Telenor ASA", "Telecommunications"⟩,
        ⟨"MOWI.OL", "Mowi ASA", "Food & Beverages"⟩,
        ⟨"NHY.OL", "Norsk Hydro ASA", "Basic Materials"⟩,
        ⟨"YAR.OL", "Yara International ASA", "Basic Materials"⟩,
        ⟨"ORKLA.OL", "Orkla ASA", "Consumer Goods"⟩,
        ⟨"STL.OL", "Statoil ASA", "Energy"⟩ ]),
    ("US",
      [ ⟨"AAPL", "Apple Inc.", "Technology"⟩,
        ⟨"MSFT", "Microsoft Corporation", "Technology"⟩,
        ⟨"GOOGL", "Alphabet Inc.", "Technology"⟩,
        ⟨"AMZN", "Amazon.com Inc.", "Consumer Discretionary"⟩,
        ⟨"TSLA", "Tesla Inc.", "Consumer Discretionary"⟩,
        ⟨"META", "Meta Platforms Inc.", "Technology"⟩,
        ⟨"JPM", "JPMorgan Chase & Co.", "Financial Services"⟩,
        ⟨"JNJ", "Johnson & Johnson", "Healthcare"⟩ ]),
    ("L",
      [ ⟨"SHEL.L", "Shell plc", "Energy"⟩,
        ⟨"AZN.L", "AstraZeneca PLC", "Healthcare"⟩,
        ⟨"ULVR.L", "Unilever PLC", "Consumer Goods"⟩,
        ⟨"LSEG.L", "London Stock Exchange Group", "Financial Services"⟩,
        ⟨"RIO.L", "Rio Tinto Group", "Basic Materials"⟩,
        ⟨"BP.L", "BP p.l.c.", "Energy"⟩ ]),
    ("DE",
      [ ⟨"SAP.DE", "SAP SE", "Technology"⟩,
        ⟨"ASME.DE", "ASML Holding N.V.", "Technology"⟩,
        ⟨"SIE.DE", "Siemens AG", "Industrials"⟩,
        ⟨"ALV.DE", "Allianz SE", "Financial Services"⟩,
        ⟨"DTE.DE", "Deutsche Telekom AG", "Telecommunications"⟩,
        ⟨"BAS.DE", "BASF SE", "Basic Materials"⟩ ]),
    ("HK",
      [ ⟨"0700.HK", "Tencent Holdings Ltd.", "Technology"⟩,
        ⟨"9988.HK", "Alibaba Group Holding Ltd.", "Technology"⟩,
        ⟨"0005.HK", "HSBC Holdings plc", "Financial Services"⟩,
        ⟨"1299.HK", "AIA Group Ltd.", "Financial Services"⟩,
        ⟨"2318.HK", "Ping An Insurance", "Financial Services"⟩,
        ⟨"3690.HK", "Meituan", "Consumer Discretionary"⟩ ]),
    ("T",
      [ ⟨"7203.T", "Toyota Motor Corp", "Consumer Discretionary"⟩,
        ⟨"6758.T", "Sony Group Corp", "Technology"⟩,
        ⟨"9984.T", "SoftBank Group Corp", "Technology"⟩,
        ⟨"8306.T", "Mitsubishi UFJ Financial Group", "Financial Services"⟩,
        ⟨"6861.T", "Keyence Corp", "Technology"⟩,
        ⟨"4063.T", "Shin-Etsu Chemical Co", "Basic Materials"⟩ ]),
    ("ST",
      [ ⟨"VOLV-B.ST", "Volvo AB", "Industrials"⟩,
        ⟨"ERICB.ST", "Telefonaktiebolaget LM Ericsson", "Technology"⟩,
        ⟨"ATLAS-B.ST", "Atlas Copco AB", "Industrials"⟩,
        ⟨"HEXA-B.ST", "Hexagon AB", "Technology"⟩,
        ⟨"SSAB-A.ST", "SSAB AB", "Basic Materials"⟩,
        ⟨"SKF-B.ST", "SKF AB", "Industrials"⟩ ]) ]

/-- The `EXCHANGE_STOCKS[exchange]` property lookup
(`server/market-service.ts:241,257`). -/
def exchangeLookup (e : String) : Option (List StockInfo) :=
  (EXCHANGE_STOCKS.find? (fun p => p.1 == e)).map (·.2)

/-- Constant `NORWEGIAN_STOCKS = EXCHANGE_STOCKS["OL"]`
(`server/market-service.ts:109`). -/
def NORWEGIAN_STOCKS : List StockInfo :=
  (exchangeLookup "OL").getD []

/-- The `Object.values(EXCHANGE_STOCKS).flat()` list
(`server/market-service.ts:182-183`). -/
def allCatalogStocks : List StockInfo :=
  (EXCHANGE_STOCKS.map (·.2)).flatten

/-- The `.find(stock => stock.symbol === symbol)` lookup over the flattened catalog
(`server/market-service.ts:184`). -/
def stockInfoFind (symbol : String) : Option StockInfo :=
  allCatalogStocks.find? (fun s => s.symbol == symbol)

/-- Appends one external event to the trace. -/
def emit (st : W) (e : NetEvent) : W :=
  { st with trace := st.trace ++ [e] }

/-- The `await new Promise(resolve => setTimeout(resolve, 1100))` pause
(`server/market-service.ts:225,276`): records the pause and advances the
clock by 1100 ms. -/
def sleep1100 (st : W) : W :=
  { st with time := st.time + 1100, trace := st.trace ++ [.delayMs 1100] }

/-- The `onConflictDoUpdate` target-on-`symbol` upsert of drizzle
(`server/market-service.ts:186-213`): a conflicting row is updated in
place, otherwise the fresh row is appended. -/
def upsertMarket (db : List MarketRow) (row : MarketRow)
    (upd : MarketRow → MarketRow) : List MarketRow :=
  if db.any (fun r => r.symbol == row.symbol) then
    db.map (fun r => if r.symbol == row.symbol then upd r else r)
  else
    db ++ [row]

/-- The `.values({...})` record of `updateMarketData`
(`server/market-service.ts:186-200`): the normalized row built from the
quote, the best-effort profile, the catalog fallback entry and the
synthesized sparkline, with JavaScript `||` fallbacks (empty strings are
falsy) and the `insert` default `lastUpdated = now`. -/
def insertRow (symbol : String) (quote : FinnhubQuote)
    (profile : Option FinnhubCompanyProfile) (spark : List Int) (t : Nat) :
    MarketRow :=
  let stockInfo := stockInfoFind symbol
  { symbol := symbol
    name := jsStr (profile.map (·.name)) (jsStr (stockInfo.map (·.name)) symbol)
    exchange := jsStr (profile.map (·.exchange)) (jsStr (splitDotSecond symbol) "US")
    price := quote.c
    change := quote.d
    changePercent := quote.dp
    volume := "N/A"
    marketCap := profile.bind (fun p =>
      if p.marketCapitalization = 0 then none
      else some (p.marketCapitalization * 1000000))
    previousClose := quote.pc
    dayHigh := quote.h
    dayLow := quote.l
    currency := jsStr (profile.map (·.currency))
      (if sIncludes symbol ".OL" then "NOK" else "USD")
    sector := jsStr (stockInfo.map (·.sector))
      (jsStr (profile.map (·.finnhubIndustry)) "Unknown")
    lastUpdated := t
    sparklineData := spark }

/-- The `onConflictDoUpdate.set({...})` record of `updateMarketData`
(`server/market-service.ts:203-212`): only the quote-derived columns, the
sparkline and `lastUpdated` are rewritten; name, exchange, currency,
sector, volume and market cap keep their stored values. -/
def conflictUpdate (quote : FinnhubQuote) (spark : List Int) (t : Nat)
    (r : MarketRow) : MarketRow :=
  { r with
    price := quote.c
    change := quote.d
    changePercent := quote.dp
    previousClose := quote.pc
    dayHigh := quote.h
    dayLow := quote.l
    sparklineData := spark
    lastUpdated := t }

/-- Method `MarketDataService.updateMarketData` (`server/market-service.ts:174-219`).
`Promise.all` issues the quote and the profile round-trips (the profile one
carries `.catch(() => null)`); a failed quote call makes the whole method
throw, which the boolean result records (`false` = thrown).  On success the
normalized record is upserted keyed on `symbol`. -/
def updateMarketData (O : Oracle) (st : W) (symbol : String) : W × Bool :=
  let k := st.tick
  let st := { st with
    tick := k + 1,
    trace := st.trace ++ [.quoteCall symbol, .profileCall symbol] }
  match O.quote k symbol with
  | none => (st, false)
  | some quote =>
    let spark := O.spark k
    let db := upsertMarket st.marketDb
      (insertRow symbol quote (O.profile k symbol) spark st.time)
      (conflictUpdate quote spark st.time)
    ({ st with marketDb := db }, true)

/-- The loop body of `initializeNorwegianStocks`
(`server/market-service.ts:222-229`): refresh one stock, then pause 1100 ms;
a thrown refresh is caught (skipping the pause) and the loop continues. -/
def norwegianStep (O : Oracle) (st : W) (stock : StockInfo) : W :=
  let r := updateMarketData O st stock.symbol
  if r.2 then sleep1100 r.1 else r.1

/-- Method `MarketDataService.initializeNorwegianStocks`
(`server/market-service.ts:221-230`): sequential best-effort refresh of the
whole Oslo catalog. -/
def initializeNorwegianStocks (O : Oracle) (st : W) : W :=
  NORWEGIAN_STOCKS.foldl (norwegianStep O) st

/-- The freshness test of `initializeExchangeData`
(`server/market-service.ts:266-272`): refresh when no cached row exists or
the first cached row is more than 5 minutes old. -/
def shouldUpdateB (st : W) (symbol : String) : Bool :=
  match st.marketDb.find? (fun r => r.symbol == symbol) with
  | none => true
  | some r => st.time - r.lastUpdated > 5 * 60 * 1000

/-- The loop body of `initializeExchangeData`
(`server/market-service.ts:263-281`): freshness check, conditional refresh
plus 1100 ms pause, errors caught per symbol. -/
def initStep (O : Oracle) (st : W) (stock : StockInfo) : W :=
  if shouldUpdateB st stock.symbol then
    let r := updateMarketData O st stock.symbol
    if r.2 then sleep1100 r.1 else r.1
  else st

/-- Method `MarketDataService.initializeExchangeData`
(`server/market-service.ts:256-282`): an unknown exchange code returns
silently; a known one is refreshed stock by stock, best-effort. -/
def initializeExchangeData (O : Oracle) (st : W) (exchange : String) : W :=
  match exchangeLookup exchange with
  | none => st
  | some stocks => stocks.foldl (initStep O) st

/-- The descending `lastUpdated` order of
`orderBy(desc(marketData.lastUpdated))` (`server/market-service.ts:237`). -/
def mdGe (a b : MarketRow) : Prop :=
  b.lastUpdated ≤ a.lastUpdated

instance : DecidableRel mdGe := fun _ _ => Nat.decLe _ _

instance : IsTotal MarketRow mdGe :=
  ⟨fun a b => Nat.le_total b.lastUpdated a.lastUpdated⟩

instance : IsTrans MarketRow mdGe :=
  ⟨fun _ _ _ hab hbc => Nat.le_trans hbc hab⟩

/-- Method `MarketDataService.getMarketDataFromDB` (`server/market-service.ts:232-238`).
A present non-empty symbol list selects by `inArray` with no ordering
clause (rows come back in storage order); otherwise all rows are returned
ordered by `lastUpdated` descending.  The state comes back untouched: the
method performs no upstream call and no write. -/
def getMarketDataFromDB (st : W) (symbols : Option (List String)) :
    W × List MarketRow :=
  match symbols with
  | some l =>
    if l.length > 0 then
      (st, st.marketDb.filter (fun r => l.contains r.symbol))
    else
      (st, List.insertionSort mdGe st.marketDb)
  | none => (st, List.insertionSort mdGe st.marketDb)

/-- Method `MarketDataService.getMarketDataByExchange`
(`server/market-service.ts:240-254`): unknown exchange codes throw
`Unsupported exchange`; known ones are refreshed and then read back. -/
def getMarketDataByExchange (O : Oracle) (st : W) (exchange : String) :
    Except String (W × List MarketRow) :=
  match exchangeLookup exchange with
  | none => .error ("Unsupported exchange: " ++ exchange)
  | some stocks =>
    let st := initializeExchangeData O st exchange
    .ok (getMarketDataFromDB st (some (stocks.map (·.symbol))))

/-- The favorites-first, then creation-order sort of
`orderBy(desc(watchedAssets.isFavorite), watchedAssets.createdAt)`
(`server/market-service.ts:292`), on joined rows. -/
def waOrder (a b : WatchedRow × Option MarketRow) : Prop :=
  (b.1.isFavorite = true → a.1.isFavorite = true) ∧
  (a.1.isFavorite = b.1.isFavorite → a.1.createdAt ≤ b.1.createdAt)

instance : DecidableRel waOrder := fun _ _ => instDecidableAnd

instance : IsTotal (WatchedRow × Option MarketRow) waOrder := by
  constructor
  intro a b
  cases ha : a.1.isFavorite <;> cases hb : b.1.isFavorite <;>
    simp [waOrder, ha, hb] <;> omega

instance : IsTrans (WatchedRow × Option MarketRow) waOrder := by
  constructor
  intro a b c hab hbc
  obtain ⟨hab1, hab2⟩ := hab
  obtain ⟨hbc1, hbc2⟩ := hbc
  cases ha : a.1.isFavorite <;> cases hb : b.1.isFavorite <;>
    cases hc : c.1.isFavorite <;> simp_all [waOrder] <;> omega

/-- Method `MarketDataService.getUserWatchedAssets`
(`server/market-service.ts:284-293`): the user's watch rows left-joined
against `marketData` on symbol, favorites first then by creation time. -/
def getUserWatchedAssets (st : W) (userId : String) :
    List (WatchedRow × Option MarketRow) :=
  let joined := (st.watchedDb.filter (fun w => w.userId == userId)).flatMap
    (fun w =>
      match st.marketDb.filter (fun m => m.symbol == w.symbol) with
      | [] => [(w, none)]
      | ms => ms.map (fun m => (w, some m)))
  List.insertionSort waOrder joined

/-- The `(userId, symbol)` where/conflict key used by every watchlist
operation (`server/market-service.ts:312,323,333,339`). -/
def watchKey (userId symbol : String) (r : WatchedRow) : Bool :=
  r.userId == userId && r.symbol == symbol

/-- The shared `set({ isFavorite, updatedAt })` shape of the watch upsert's
conflict branch (`server/market-service.ts:313-316`) and of
`toggleFavorite`'s update (`server/market-service.ts:332`), applied to
every row matching the key. -/
def setFavRows (db : List WatchedRow) (userId symbol : String) (fav : Bool)
    (t : Nat) : List WatchedRow :=
  db.map (fun r =>
    if watchKey userId symbol r then { r with isFavorite := fav, updatedAt := t }
    else r)

/-- The fresh watch row of `addWatchedAsset`'s `.values({...})`
(`server/market-service.ts:303-310`), with the JavaScript `||` defaults for
asset type and region and the `defaultNow()` timestamps. -/
def newWatchRow (userId symbol : String) (isFavorite : Bool)
    (extraData : Option ExtraData) (t : Nat) : WatchedRow :=
  { userId := userId
    symbol := symbol
    name := extraData.bind (·.name)
    exchange := extraData.bind (·.exchange)
    assetType := jsStr (extraData.bind (·.assetType)) "stock"
    region := jsStr (extraData.bind (·.region)) "Global"
    isFavorite := isFavorite
    createdAt := t
    updatedAt := t }

/-- The `onConflictDoUpdate` upsert of `addWatchedAsset` targeted on
`(userId, symbol)` (`server/market-service.ts:303-317`). -/
def watchUpsert (db : List WatchedRow) (userId symbol : String)
    (isFavorite : Bool) (extraData : Option ExtraData) (t : Nat) :
    List WatchedRow :=
  if db.any (watchKey userId symbol) then
    setFavRows db userId symbol isFavorite t
  else
    db ++ [newWatchRow userId symbol isFavorite extraData t]

/-- Method `MarketDataService.addWatchedAsset` (`server/market-service.ts:295-318`):
best-effort market refresh (a thrown refresh only warns), then the upsert
on the `(userId, symbol)` conflict target. -/
def addWatchedAsset (O : Oracle) (st : W) (userId symbol : String)
    (isFavorite : Bool) (extraData : Option ExtraData) : W :=
  let st := (updateMarketData O st symbol).1
  { st with watchedDb :=
      watchUpsert st.watchedDb userId symbol isFavorite extraData st.time }

/-- Method `MarketDataService.toggleFavorite` (`server/market-service.ts:320-335`):
no record for `(userId, symbol)` creates one as favorite via
`addWatchedAsset`; otherwise the record's flag is negated and `updatedAt`
bumped. -/
def toggleFavorite (O : Oracle) (st : W) (userId symbol : String) : W :=
  match st.watchedDb.find? (watchKey userId symbol) with
  | none => addWatchedAsset O st userId symbol true none
  | some existing =>
    { st with watchedDb :=
        setFavRows st.watchedDb userId symbol (!existing.isFavorite) st.time }

/-- Method `MarketDataService.removeWatchedAsset`
(`server/market-service.ts:337-340`): delete by `(userId, symbol)`. -/
def removeWatchedAsset (st : W) (userId symbol : String) : W :=
  { st with watchedDb := st.watchedDb.filter (fun r => !(watchKey userId symbol r)) }

/-- At most one `marketData` row per symbol (the `unique()` constraint of
`shared/schema.ts` on `market_data.symbol`). -/
def mdUnique (db : List MarketRow) : Prop :=
  db.Pairwise (fun a b => a.symbol ≠ b.symbol)

/-- At most one `watchedAssets` row per `(userId, symbol)` pair. -/
def wUnique (db : List WatchedRow) : Prop :=
  db.Pairwise (fun a b => ¬(a.userId = b.userId ∧ a.symbol = b.symbol))

/-- Number of rows of the watch table carrying the given key. -/
def wCount (db : List WatchedRow) (userId symbol : String) : Nat :=
  (db.filter (watchKey userId symbol)).length

/-- Number of rows of the quote cache carrying the given symbol. -/
def mdCount (db : List MarketRow) (symbol : String) : Nat :=
  (db.filter (fun r => r.symbol == symbol)).length

/-- Number of upstream quote calls for a symbol recorded in a trace. -/
def quoteCalls (tr : List NetEvent) (symbol : String) : Nat :=
  (tr.filter (fun e => match e with
    | .quoteCall s => s == symbol
    | _ => false)).length

/-- Number of `setTimeout` pauses recorded in a trace. -/
def delayCount (tr : List NetEvent) : Nat :=
  (tr.filter (fun e => match e with | .delayMs _ => true | _ => false)).length

/-! Concrete worlds and oracles used to instantiate the theorems. -/

/-- The empty world: no rows, clock at 0, no calls issued yet. -/
def w0 : W := ⟨[], [], 0, 0, []⟩

/-- A fixed sample quote payload. -/
def quoteA : FinnhubQuote := ⟨10, 2, 1, 12, 8, 9, 8, 0⟩

/-- A second sample quote payload. -/
def quoteB : FinnhubQuote := ⟨20, 3, 2, 22, 18, 19, 17, 0⟩

/-- Every quote call succeeds with `quoteA`; every profile call fails. -/
def oracleA : Oracle :=
  { quote := fun _ _ => some quoteA
    profile := fun _ _ => none
    spark := fun _ => [9, 10, 11] }

/-- The first two quote round-trips fail, later ones succeed; profiles
always fail. -/
def oracleFail2 : Oracle :=
  { quote := fun k _ => if k < 2 then none else some quoteA
    profile := fun _ _ => none
    spark := fun _ => [] }

/-- Every quote call fails. -/
def oracleFailAll : Oracle :=
  { quote := fun _ _ => none
    profile := fun _ _ => none
    spark := fun _ => [] }

/-- A cached row for a bare symbol, last updated at the given time. -/
def mkRow (symbol : String) (lu : Nat) : MarketRow :=
  { symbol := symbol, name := symbol, exchange := "US", price := 1, change := 0,
    changePercent := 0, volume := "N/A", marketCap := none, previousClose := 1,
    dayHigh := 1, dayLow := 1, currency := "USD", sector := "S",
    lastUpdated := lu, sparklineData := [] }

/-- A world whose cache holds "A" (older) before "B" (newer) in storage
order, so an unordered read returns them oldest first. -/
def wOrder : W := ⟨[mkRow "A" 1, mkRow "B" 2], [], 5, 0, []⟩

/-- A sample watch row for witnesses. -/
def watchRowA : WatchedRow :=
  { userId := "u1", symbol := "EQNR.OL", name := none, exchange := none,
    assetType := "stock", region := "Global", isFavorite := true,
    createdAt := 0, updatedAt := 0 }

/-- A world with one watched asset. -/
def wWatch : W := ⟨[], [watchRowA], 7, 0, []⟩

/-- A watch row of a second user, sharing the symbol. -/
def watchRowB : WatchedRow :=
  { userId := "u2", symbol := "EQNR.OL", name := none, exchange := none,
    assetType := "stock", region := "Global", isFavorite := false,
    createdAt := 1, updatedAt := 1 }

/-- A world with the watch rows of two users. -/
def wWatch2 : W := ⟨[], [watchRowA, watchRowB], 7, 0, []⟩

/-- A world whose cache already holds a fresh "EQNR.OL" row (100 ms old,
well inside the 5-minute staleness window). -/
def wFresh : W := ⟨[mkRow "EQNR.OL" 100], [], 200, 0, []⟩

/-! Helper lemmas on traces, the market upsert and the watch upsert. -/

theorem delayCount_append (a b : List NetEvent) :
    delayCount (a ++ b) = delayCount a + delayCount b := by
  simp [delayCount, List.filter_append]

theorem quoteCalls_append (a b : List NetEvent) (s : String) :
    quoteCalls (a ++ b) s = quoteCalls a s + quoteCalls b s := by
  simp [quoteCalls, List.filter_append]

theorem updateMarketData_watchedDb (O : Oracle) (st : W) (s : String) :
    ((updateMarketData O st s).1).watchedDb = st.watchedDb := by
  cases h : O.quote st.tick s <;> simp [updateMarketData, h]

theorem updateMarketData_time (O : Oracle) (st : W) (s : String) :
    ((updateMarketData O st s).1).time = st.time := by
  cases h : O.quote st.tick s <;> simp [updateMarketData, h]

theorem updateMarketData_trace (O : Oracle) (st : W) (s : String) :
    ((updateMarketData O st s).1).trace =
      st.trace ++ [.quoteCall s, .profileCall s] := by
  cases h : O.quote st.tick s <;> simp [updateMarketData, h]

theorem updateMarketData_none (O : Oracle) (st : W) (s : String)
    (hq : O.quote st.tick s = none) :
    updateMarketData O st s =
      ({ st with
          tick := st.tick + 1,
          trace := st.trace ++ [.quoteCall s, .profileCall s] }, false) := by
  simp [updateMarketData, hq]

theorem updateMarketData_some (O : Oracle) (st : W) (s : String)
    (q : FinnhubQuote) (hq : O.quote st.tick s = some q) :
    updateMarketData O st s =
      ({ st with
          tick := st.tick + 1,
          trace := st.trace ++ [.quoteCall s, .profileCall s],
          marketDb := upsertMarket st.marketDb
            (insertRow s q (O.profile st.tick s) (O.spark st.tick) st.time)
            (conflictUpdate q (O.spark st.tick) st.time) }, true) := by
  simp [updateMarketData, hq]

theorem conflictUpdate_symbol (q : FinnhubQuote) (sp : List Int) (t : Nat)
    (r : MarketRow) : (conflictUpdate q sp t r).symbol = r.symbol := rfl

theorem insertRow_symbol (s : String) (q : FinnhubQuote)
    (p : Option FinnhubCompanyProfile) (sp : List Int) (t : Nat) :
    (insertRow s q p sp t).symbol = s := rfl

theorem mdCount_le_one {db : List MarketRow} (h : mdUnique db) (s : String) :
    mdCount db s ≤ 1 := by
  induction db with
  | nil => simp [mdCount]
  | cons a tl ih =>
    rw [mdUnique, List.pairwise_cons] at h
    obtain ⟨ha, htl⟩ := h
    by_cases hk : (a.symbol == s) = true
    · have hnil : tl.filter (fun r => r.symbol == s) = [] := by
        rw [List.filter_eq_nil_iff]
        intro x hx hxs
        exact ha x hx (by
          have h1 : a.symbol = s := by simpa using hk
          have h2 : x.symbol = s := by simpa using hxs
          rw [h1, h2])
      simp [mdCount, List.filter_cons, hk, hnil]
    · simp only [mdCount, List.filter_cons, hk, if_neg, Bool.false_eq_true,
        ite_false]
      exact ih htl

theorem mdCount_pos_of_any {db : List MarketRow} {s : String}
    (hany : db.any (fun r => r.symbol == s) = true) : 1 ≤ mdCount db s := by
  obtain ⟨x, hx, hxs⟩ := List.any_eq_true.1 hany
  have : x ∈ db.filter (fun r => r.symbol == s) := List.mem_filter.2 ⟨hx, hxs⟩
  have := List.length_pos.2 (List.ne_nil_of_mem this)
  simpa [mdCount] using this

theorem upsertMarket_unique {db : List MarketRow} {row : MarketRow}
    {upd : MarketRow → MarketRow} (hupd : ∀ r, (upd r).symbol = r.symbol)
    (h : mdUnique db) : mdUnique (upsertMarket db row upd) := by
  unfold upsertMarket
  split
  · exact h.map _ (fun a b hab => by
      by_cases ha : (a.symbol == row.symbol) = true <;>
        by_cases hb : (b.symbol == row.symbol) = true <;>
          simp [ha, hb, hupd, hab])
  · rename_i hany
    rw [mdUnique, List.pairwise_append]
    refine ⟨h, List.pairwise_singleton _ _, ?_⟩
    intro a ha b hb
    rw [List.mem_singleton] at hb
    subst hb
    intro hEq
    exact hany (List.any_eq_true.2 ⟨a, ha, by simpa using hEq⟩)

theorem mdCount_map_of_symbol {db : List MarketRow} {g : MarketRow → MarketRow}
    (hg : ∀ x, (g x).symbol = x.symbol) (s : String) :
    mdCount (db.map g) s = mdCount db s := by
  induction db with
  | nil => rfl
  | cons a tl ih =>
    simp only [mdCount, List.map_cons, List.filter_cons] at *
    rw [hg a]
    by_cases hk : (a.symbol == s) = true <;> simp [hk, ih]

theorem upsertMarket_count {db : List MarketRow} {row : MarketRow}
    {upd : MarketRow → MarketRow} (hupd : ∀ r, (upd r).symbol = r.symbol)
    (h : mdUnique db) : mdCount (upsertMarket db row upd) row.symbol = 1 := by
  unfold upsertMarket
  split
  · rename_i hany
    have hg : ∀ x : MarketRow,
        ((fun x => if x.symbol == row.symbol then upd x else x) x).symbol
          = x.symbol := by
      intro x
      by_cases hk : (x.symbol == row.symbol) = true <;> simp [hk, hupd]
    have hle := mdCount_le_one h row.symbol
    have hge := mdCount_pos_of_any hany
    rw [mdCount_map_of_symbol hg]
    omega
  · rename_i hany
    have hnil : db.filter (fun r => r.symbol == row.symbol) = [] := by
      rw [List.filter_eq_nil_iff]
      intro x hx hxs
      exact hany (List.any_eq_true.2 ⟨x, hx, hxs⟩)
    simp [mdCount, List.filter_append, hnil]

theorem upsertMarket_length_of_any {db : List MarketRow} {row : MarketRow}
    {upd : MarketRow → MarketRow}
    (hany : db.any (fun r => r.symbol == row.symbol) = true) :
    (upsertMarket db row upd).length = db.length := by
  unfold upsertMarket
  rw [if_pos hany, List.length_map]

theorem upsertMarket_key_prop {db : List MarketRow} {row : MarketRow}
    {upd : MarketRow → MarketRow} (P : MarketRow → Prop)
    (hrow : P row) (hP : ∀ r, P (upd r)) :
    ∀ r ∈ upsertMarket db row upd, r.symbol = row.symbol → P r := by
  unfold upsertMarket
  split
  · intro r hr hs
    obtain ⟨a, _, rfl⟩ := List.mem_map.1 hr
    by_cases hk : (a.symbol == row.symbol) = true
    · simpa [hk] using hP a
    · rw [if_neg hk] at hs ⊢
      exact absurd (by simpa using hs) (by simpa using hk)
  · rename_i hany
    intro r hr hs
    rcases List.mem_append.1 hr with hmem | hmem
    · exact absurd (List.any_eq_true.2 ⟨r, hmem, by simpa using hs⟩) hany
    · rw [List.mem_singleton] at hmem
      subst hmem
      exact hrow

theorem upsertMarket_any {db : List MarketRow} {row : MarketRow}
    {upd : MarketRow → MarketRow} (hupd : ∀ r, (upd r).symbol = r.symbol) :
    (upsertMarket db row upd).any (fun r => r.symbol == row.symbol) = true := by
  unfold upsertMarket
  split
  · rename_i hany
    obtain ⟨x, hx, hxs⟩ := List.any_eq_true.1 hany
    refine List.any_eq_true.2 ⟨_, List.mem_map.2 ⟨x, hx, rfl⟩, ?_⟩
    rw [if_pos hxs]
    simpa [hupd] using hxs
  · exact List.any_eq_true.2 ⟨row, by simp, by simp⟩

theorem upsertMarket_fresh_key {db : List MarketRow} {row : MarketRow}
    {upd : MarketRow → MarketRow} {t : Nat} {s : String}
    (hupd : ∀ r, (upd r).symbol = r.symbol)
    (hut : ∀ r, (upd r).lastUpdated = t) (hrt : row.lastUpdated = t)
    (hs : row.symbol = s) :
    ∃ r', (upsertMarket db row upd).find?
        (fun r => r.symbol == s) = some r' ∧ r'.lastUpdated = t := by
  subst hs
  have hsome : ((upsertMarket db row upd).find?
      (fun r => r.symbol == row.symbol)).isSome := by
    rw [List.find?_isSome]
    obtain ⟨x, hx, hxs⟩ := List.any_eq_true.1 (@upsertMarket_any db row upd hupd)
    exact ⟨x, hx, hxs⟩
  obtain ⟨r', hr'⟩ := Option.isSome_iff_exists.1 hsome
  refine ⟨r', hr', ?_⟩
  have hmem := List.mem_of_find?_eq_some hr'
  have hkey : r'.symbol = row.symbol := by
    simpa using List.find?_some hr'
  exact upsertMarket_key_prop (fun r => r.lastUpdated = t) hrt hut r' hmem hkey

/-! Watch-table helper lemmas. -/

theorem watchKey_set (u s : String) (f : Bool) (t : Nat) (r : WatchedRow) :
    watchKey u s { r with isFavorite := f, updatedAt := t } = watchKey u s r :=
  rfl

theorem watchKey_newWatchRow (u s : String) (f : Bool)
    (e : Option ExtraData) (t : Nat) :
    watchKey u s (newWatchRow u s f e t) = true := by
  simp [watchKey, newWatchRow]

theorem wCount_le_one {db : List WatchedRow} (h : wUnique db) (u s : String) :
    wCount db u s ≤ 1 := by
  induction db with
  | nil => simp [wCount]
  | cons a tl ih =>
    rw [wUnique, List.pairwise_cons] at h
    obtain ⟨ha, htl⟩ := h
    by_cases hk : watchKey u s a = true
    · have hnil : tl.filter (watchKey u s) = [] := by
        rw [List.filter_eq_nil_iff]
        intro x hx hxs
        have h1 : a.userId = u ∧ a.symbol = s := by
          simpa [watchKey] using hk
        have h2 : x.userId = u ∧ x.symbol = s := by
          simpa [watchKey] using hxs
        exact ha x hx ⟨h1.1.trans h2.1.symm, h1.2.trans h2.2.symm⟩
      simp [wCount, List.filter_cons, hk, hnil]
    · simp only [wCount, List.filter_cons, hk, Bool.false_eq_true, ite_false]
      exact ih htl

theorem wCount_pos_of_any {db : List WatchedRow} {u s : String}
    (hany : db.any (watchKey u s) = true) : 1 ≤ wCount db u s := by
  obtain ⟨x, hx, hxs⟩ := List.any_eq_true.1 hany
  have hmem : x ∈ db.filter (watchKey u s) := List.mem_filter.2 ⟨hx, hxs⟩
  have := List.length_pos.2 (List.ne_nil_of_mem hmem)
  simpa [wCount] using this

theorem wCount_map_of_key {db : List WatchedRow} {g : WatchedRow → WatchedRow}
    {u s : String} (hg : ∀ x, watchKey u s (g x) = watchKey u s x) :
    wCount (db.map g) u s = wCount db u s := by
  induction db with
  | nil => rfl
  | cons a tl ih =>
    simp only [wCount, List.map_cons, List.filter_cons] at *
    rw [hg a]
    by_cases hk : watchKey u s a = true <;> simp [hk, ih]

theorem setFavRows_count (db : List WatchedRow) (u s : String) (f : Bool)
    (t : Nat) : wCount (setFavRows db u s f t) u s = wCount db u s := by
  apply wCount_map_of_key
  intro x
  by_cases hk : watchKey u s x = true <;> simp [hk, watchKey_set]

theorem setFavRows_unique {db : List WatchedRow} (u s : String) (f : Bool)
    (t : Nat) (h : wUnique db) : wUnique (setFavRows db u s f t) := by
  refine h.map _ (fun a b hab => ?_)
  by_cases ha : watchKey u s a = true <;>
    by_cases hb : watchKey u s b = true <;>
      simpa [setFavRows, ha, hb] using hab

theorem setFavRows_key_prop {db : List WatchedRow} (u s : String) (f : Bool)
    (t : Nat) :
    ∀ r ∈ setFavRows db u s f t, watchKey u s r = true →
      r.isFavorite = f ∧ r.updatedAt = t := by
  intro r hr hk
  obtain ⟨a, _, rfl⟩ := List.mem_map.1 hr
  by_cases hak : watchKey u s a = true
  · simp [hak]
  · rw [if_neg hak] at hk
    exact absurd hk hak

theorem setFavRows_find? {db : List WatchedRow} {u s : String} {r0 : WatchedRow}
    (f : Bool) (t : Nat) (h : db.find? (watchKey u s) = some r0) :
    (setFavRows db u s f t).find? (watchKey u s) =
      some { r0 with isFavorite := f, updatedAt := t } := by
  unfold setFavRows
  rw [List.find?_map]
  have hcomp : (watchKey u s ∘ fun r =>
      if watchKey u s r then { r with isFavorite := f, updatedAt := t } else r)
        = watchKey u s := by
    funext x
    by_cases hk : watchKey u s x = true <;> simp [hk, watchKey_set]
  rw [hcomp, h]
  have hk0 : watchKey u s r0 = true := List.find?_some h
  simp [hk0]

theorem watchUpsert_unique {db : List WatchedRow} (u s : String) (f : Bool)
    (e : Option ExtraData) (t : Nat) (h : wUnique db) :
    wUnique (watchUpsert db u s f e t) := by
  unfold watchUpsert
  split
  · exact setFavRows_unique u s f t h
  · rename_i hany
    rw [wUnique, List.pairwise_append]
    refine ⟨h, List.pairwise_singleton _ _, ?_⟩
    intro a ha b hb
    rw [List.mem_singleton] at hb
    subst hb
    intro hEq
    refine hany (List.any_eq_true.2 ⟨a, ha, ?_⟩)
    simp [watchKey, newWatchRow, hEq.1, hEq.2]

theorem watchUpsert_count {db : List WatchedRow} (u s : String) (f : Bool)
    (e : Option ExtraData) (t : Nat) (h : wUnique db) :
    wCount (watchUpsert db u s f e t) u s = 1 := by
  unfold watchUpsert
  split
  · rename_i hany
    have hle := wCount_le_one h u s
    have hge := wCount_pos_of_any hany
    rw [setFavRows_count]
    omega
  · rename_i hany
    have hnil : db.filter (watchKey u s) = [] := by
      rw [List.filter_eq_nil_iff]
      intro x hx hxs
      exact hany (List.any_eq_true.2 ⟨x, hx, hxs⟩)
    simp [wCount, List.filter_append, hnil, watchKey_newWatchRow]

theorem watchUpsert_key_prop {db : List WatchedRow} (u s : String) (f : Bool)
    (e : Option ExtraData) (t : Nat) :
    ∀ r ∈ watchUpsert db u s f e t, watchKey u s r = true →
      r.isFavorite = f ∧ r.updatedAt = t := by
  unfold watchUpsert
  split
  · exact setFavRows_key_prop u s f t
  · intro r hr hk
    rcases List.mem_append.1 hr with hmem | hmem
    · rename_i hany
      exact absurd (List.any_eq_true.2 ⟨r, hmem, hk⟩) hany
    · rw [List.mem_singleton] at hmem
      subst hmem
      simp [newWatchRow]

theorem watchUpsert_any {db : List WatchedRow} (u s : String) (f : Bool)
    (e : Option ExtraData) (t : Nat) :
    (watchUpsert db u s f e t).any (watchKey u s) = true := by
  unfold watchUpsert
  split
  · rename_i hany
    obtain ⟨x, hx, hxs⟩ := List.any_eq_true.1 hany
    refine List.any_eq_true.2 ⟨_, List.mem_map.2 ⟨x, hx, rfl⟩, ?_⟩
    rw [if_pos hxs, watchKey_set]
    exact hxs
  · exact List.any_eq_true.2 ⟨_, List.mem_append.2 (Or.inr (by simp)),
      watchKey_newWatchRow u s f e t⟩

theorem watchUpsert_length_of_any {db : List WatchedRow} (u s : String)
    (f : Bool) (e : Option ExtraData) (t : Nat)
    (hany : db.any (watchKey u s) = true) :
    (watchUpsert db u s f e t).length = db.length := by
  unfold watchUpsert
  rw [if_pos hany]
  exact List.length_map _ _

theorem mem_getUserWatchedAssets {st : W} {u : String}
    {p : WatchedRow × Option MarketRow} (hp : p ∈ getUserWatchedAssets st u) :
    p.1 ∈ st.watchedDb ∧ p.1.userId = u := by
  unfold getUserWatchedAssets at hp
  have hp' := (List.perm_insertionSort waOrder _).mem_iff.1 hp
  obtain ⟨w, hw, hpw⟩ := List.mem_flatMap.1 hp'
  have hw' := List.mem_filter.1 hw
  have hfst : p.1 = w := by
    revert hpw
    cases hmatch : st.marketDb.filter (fun m => m.symbol == w.symbol) with
    | nil =>
      intro hpw
      rw [List.mem_singleton] at hpw
      rw [hpw]
    | cons m ms =>
      intro hpw
      obtain ⟨m', _, hm'⟩ := List.mem_map.1 hpw
      rw [← hm']
  rw [hfst]
  exact ⟨hw'.1, by simpa using hw'.2⟩

/-! Claim theorems. -/

/-- C2 (counterexample): `getMarketDataFromDB` with a symbol filter does
NOT return rows ordered by last-updated descending — on a cache holding
"A" (updated at 1) before "B" (updated at 2), the filtered read returns
them in storage order, oldest first, because the filtered branch of the
source carries no `orderBy` clause. -/
theorem c2_counterexample :
    ¬ List.Sorted mdGe (getMarketDataFromDB wOrder (some ["A", "B"])).2 := by
  decide

/-- C2 (amended): `getMarketDataFromDB` never touches the network and never
writes (the state comes back unchanged, trace included); the unfiltered
read (no symbol list, or an empty one) is ordered by last-updated
descending; the filtered read returns the matching rows in storage order
with no ordering applied. -/
theorem c2_read_path (st : W) (q : Option (List String)) :
    (getMarketDataFromDB st q).1 = st ∧
    ((q = none ∨ q = some []) →
      List.Sorted mdGe (getMarketDataFromDB st q).2) ∧
    (∀ l, q = some l → l ≠ [] →
      (getMarketDataFromDB st q).2 =
        st.marketDb.filter (fun r => l.contains r.symbol)) := by
  refine ⟨?_, ?_, ?_⟩
  · cases q with
    | none => rfl
    | some l => by_cases hl : l.length > 0 <;> simp [getMarketDataFromDB, hl]
  · intro hq
    rcases hq with rfl | rfl
    · exact List.sorted_insertionSort mdGe st.marketDb
    · simpa [getMarketDataFromDB] using
        List.sorted_insertionSort mdGe st.marketDb
  · intro l hq hl
    subst hq
    have hpos : l.length > 0 := List.length_pos.2 hl
    simp [getMarketDataFromDB, hpos]

/-- C2 witness: the amended theorem evaluated on the concrete two-row
cache, for both the unfiltered and the filtered branch. -/
theorem c2_witness :
    (getMarketDataFromDB wOrder none).1 = wOrder ∧
    List.Sorted mdGe (getMarketDataFromDB wOrder none).2 ∧
    (getMarketDataFromDB wOrder (some ["A"])).2 =
      wOrder.marketDb.filter (fun r => ["A"].contains r.symbol) := by
  obtain ⟨h1, h2, _⟩ := c2_read_path wOrder none
  obtain ⟨_, _, h3⟩ := c2_read_path wOrder (some ["A"])
  exact ⟨h1, h2 (Or.inl rfl), h3 ["A"] rfl (by simp)⟩

/-- C10: an exchange code missing from the static catalog makes
`getMarketDataByExchange` throw `Unsupported exchange` while
`initializeExchangeData` returns silently leaving the state untouched; a
code present in the catalog never makes `getMarketDataByExchange` throw —
it refreshes and then reads the exchange's symbols back. -/
theorem c10_unknown_exchange (O : Oracle) (st : W) (e : String) :
    (exchangeLookup e = none →
      getMarketDataByExchange O st e =
        .error ("Unsupported exchange: " ++ e) ∧
      initializeExchangeData O st e = st) ∧
    (∀ stocks, exchangeLookup e = some stocks →
      getMarketDataByExchange O st e =
        .ok (getMarketDataFromDB (initializeExchangeData O st e)
          (some (stocks.map (·.symbol))))) := by
  constructor
  · intro h
    constructor
    · simp [getMarketDataByExchange, h]
    · simp [initializeExchangeData, h]
  · intro stocks h
    simp [getMarketDataByExchange, initializeExchangeData, h]

/-- C10 witness: the unknown code "ZZ" throws and leaves the world alone;
the known code "OL" returns `.ok`. -/
theorem c10_witness :
    getMarketDataByExchange oracleA w0 "ZZ" =
      .error ("Unsupported exchange: " ++ "ZZ") ∧
    initializeExchangeData oracleA w0 "ZZ" = w0 ∧
    getMarketDataByExchange oracleA w0 "OL" =
      .ok (getMarketDataFromDB (initializeExchangeData oracleA w0 "OL")
        (some (NORWEGIAN_STOCKS.map (·.symbol)))) := by
  obtain ⟨h1, _⟩ := c10_unknown_exchange oracleA w0 "ZZ"
  obtain ⟨hz1, hz2⟩ := h1 (by decide)
  obtain ⟨_, h2⟩ := c10_unknown_exchange oracleA w0 "OL"
  exact ⟨hz1, hz2, h2 NORWEGIAN_STOCKS (by decide)⟩

/-- C6: `removeWatchedAsset` deletes exactly the `(userId, symbol)` rows —
afterwards no row carries the key, every other row survives,
`getUserWatchedAssets` for that user shows no entry for the symbol, and a
second removal of the same pair is a no-op leaving the state unchanged. -/
theorem c6_remove_idempotent (st : W) (u s : String) :
    (∀ r ∈ (removeWatchedAsset st u s).watchedDb,
      ¬(r.userId = u ∧ r.symbol = s)) ∧
    (∀ r ∈ st.watchedDb, ¬(r.userId = u ∧ r.symbol = s) →
      r ∈ (removeWatchedAsset st u s).watchedDb) ∧
    (∀ p ∈ getUserWatchedAssets (removeWatchedAsset st u s) u,
      p.1.symbol ≠ s) ∧
    removeWatchedAsset (removeWatchedAsset st u s) u s =
      removeWatchedAsset st u s := by
  refine ⟨?_, ?_, ?_, ?_⟩
  · intro r hr hk
    have := (List.mem_filter.1 hr).2
    simp [watchKey, hk.1, hk.2] at this
  · intro r hr hk
    refine List.mem_filter.2 ⟨hr, ?_⟩
    simp only [watchKey, Bool.not_eq_eq_eq_not, Bool.not_true]
    rcases not_and_or.1 hk with h | h <;> simp [h]
  · intro p hp hs
    obtain ⟨hmem, hu⟩ := mem_getUserWatchedAssets hp
    have := (List.mem_filter.1 hmem).2
    simp [watchKey, hu, hs] at this
  · unfold removeWatchedAsset
    have : ((st.watchedDb.filter (fun r => !(watchKey u s r))).filter
        (fun r => !(watchKey u s r)))
        = st.watchedDb.filter (fun r => !(watchKey u s r)) := by
      apply List.filter_eq_self.2
      intro a ha
      exact (List.mem_filter.1 ha).2
    simp [this]

/-- C6 witness: on the concrete two-user watch table, user u2's row
survives u1's removal and a second removal changes nothing. -/
theorem c6_witness :
    removeWatchedAsset (removeWatchedAsset wWatch2 "u1" "EQNR.OL") "u1"
        "EQNR.OL"
      = removeWatchedAsset wWatch2 "u1" "EQNR.OL" ∧
    watchRowB ∈ (removeWatchedAsset wWatch2 "u1" "EQNR.OL").watchedDb := by
  obtain ⟨_, h2, _, h4⟩ := c6_remove_idempotent wWatch2 "u1" "EQNR.OL"
  exact ⟨h4, h2 watchRowB (by decide) (by decide)⟩

theorem addWatchedAsset_watchedDb (O : Oracle) (st : W) (u s : String)
    (f : Bool) (e : Option ExtraData) :
    (addWatchedAsset O st u s f e).watchedDb =
      watchUpsert st.watchedDb u s f e st.time := by
  simp [addWatchedAsset, updateMarketData_watchedDb, updateMarketData_time]

theorem addWatchedAsset_time (O : Oracle) (st : W) (u s : String)
    (f : Bool) (e : Option ExtraData) :
    (addWatchedAsset O st u s f e).time = st.time := by
  simp [addWatchedAsset, updateMarketData_time]

/-- C1: the watch upsert is keyed on `(userId, symbol)` — starting from a
duplicate-free table, one `addWatchedAsset` leaves the table duplicate-free
with exactly one row for the pair; a second call for the same pair keeps
exactly one row, adds no row (same length: it updates, not inserts), and
that row carries the second call's favorite flag and a bumped
`updatedAt`. -/
theorem c1_watch_upsert_unique (O1 O2 : Oracle) (st : W) (u s : String)
    (f1 f2 : Bool) (e1 e2 : Option ExtraData) (h : wUnique st.watchedDb) :
    wUnique (addWatchedAsset O1 st u s f1 e1).watchedDb ∧
    wCount (addWatchedAsset O1 st u s f1 e1).watchedDb u s = 1 ∧
    wUnique (addWatchedAsset O2 (addWatchedAsset O1 st u s f1 e1)
      u s f2 e2).watchedDb ∧
    wCount (addWatchedAsset O2 (addWatchedAsset O1 st u s f1 e1)
      u s f2 e2).watchedDb u s = 1 ∧
    (addWatchedAsset O2 (addWatchedAsset O1 st u s f1 e1)
        u s f2 e2).watchedDb.length
      = (addWatchedAsset O1 st u s f1 e1).watchedDb.length ∧
    (∀ r ∈ (addWatchedAsset O2 (addWatchedAsset O1 st u s f1 e1)
        u s f2 e2).watchedDb,
      watchKey u s r = true → r.isFavorite = f2 ∧ r.updatedAt = st.time) := by
  have h1db := addWatchedAsset_watchedDb O1 st u s f1 e1
  have h1t := addWatchedAsset_time O1 st u s f1 e1
  have h2db := addWatchedAsset_watchedDb O2 (addWatchedAsset O1 st u s f1 e1)
    u s f2 e2
  have hu1 : wUnique (addWatchedAsset O1 st u s f1 e1).watchedDb := by
    rw [h1db]; exact watchUpsert_unique u s f1 e1 st.time h
  refine ⟨hu1, ?_, ?_, ?_, ?_, ?_⟩
  · rw [h1db]; exact watchUpsert_count u s f1 e1 st.time h
  · rw [h2db]; exact watchUpsert_unique u s f2 e2 _ hu1
  · rw [h2db]; exact watchUpsert_count u s f2 e2 _ hu1
  · rw [h2db]
    apply watchUpsert_length_of_any
    rw [h1db]
    exact watchUpsert_any u s f1 e1 st.time
  · rw [h2db, h1t]
    exact watchUpsert_key_prop u s f2 e2 st.time

/-- C1 witness: two upserts for `("u1", "AAPL")` on the empty world leave
exactly one row carrying the second call's flag. -/
theorem c1_witness :
    wUnique w0.watchedDb ∧
    wCount (addWatchedAsset oracleA (addWatchedAsset oracleA w0 "u1" "AAPL"
      false none) "u1" "AAPL" true none).watchedDb "u1" "AAPL" = 1 ∧
    (addWatchedAsset oracleA (addWatchedAsset oracleA w0 "u1" "AAPL"
        false none) "u1" "AAPL" true none).watchedDb.length
      = (addWatchedAsset oracleA w0 "u1" "AAPL" false none).watchedDb.length := by
  have hu : wUnique w0.watchedDb := List.Pairwise.nil
  obtain ⟨_, _, _, hc, hl, _⟩ := c1_watch_upsert_unique oracleA oracleA w0
    "u1" "AAPL" false true none none hu
  exact ⟨hu, hc, hl⟩

/-- C4: the quote-cache upsert is keyed on the unique `symbol` column —
from a duplicate-free cache, a successful `updateMarketData` returns
without throwing, keeps the cache duplicate-free with exactly one row for
the symbol, adds no row when the symbol was already cached, and rewrites
that row's price/change/percent/previous-close/day-high/day-low/sparkline
and `lastUpdated` in place. -/
theorem c4_market_upsert_unique (O : Oracle) (st : W) (s : String)
    (q : FinnhubQuote) (h : mdUnique st.marketDb)
    (hq : O.quote st.tick s = some q) :
    (updateMarketData O st s).2 = true ∧
    mdUnique ((updateMarketData O st s).1).marketDb ∧
    mdCount ((updateMarketData O st s).1).marketDb s = 1 ∧
    (st.marketDb.any (fun r => r.symbol == s) = true →
      ((updateMarketData O st s).1).marketDb.length = st.marketDb.length) ∧
    (∀ r ∈ ((updateMarketData O st s).1).marketDb, r.symbol = s →
      r.price = q.c ∧ r.change = q.d ∧ r.changePercent = q.dp ∧
      r.previousClose = q.pc ∧ r.dayHigh = q.h ∧ r.dayLow = q.l ∧
      r.sparklineData = O.spark st.tick ∧ r.lastUpdated = st.time) := by
  rw [updateMarketData_some O st s q hq]
  have hupd : ∀ r, (conflictUpdate q (O.spark st.tick) st.time r).symbol
      = r.symbol := conflictUpdate_symbol q (O.spark st.tick) st.time
  refine ⟨rfl, ?_, ?_, ?_, ?_⟩
  · exact upsertMarket_unique hupd h
  · exact upsertMarket_count hupd h
  · intro hany
    exact upsertMarket_length_of_any hany
  · intro r hr hs
    exact upsertMarket_key_prop
      (fun r => r.price = q.c ∧ r.change = q.d ∧ r.changePercent = q.dp ∧
        r.previousClose = q.pc ∧ r.dayHigh = q.h ∧ r.dayLow = q.l ∧
        r.sparklineData = O.spark st.tick ∧ r.lastUpdated = st.time)
      (by simp [insertRow]) (fun r => by simp [conflictUpdate]) r hr hs

/-- C4 witness: refreshing "AAPL" twice on the empty world keeps one cached
row with second-call fields. -/
theorem c4_witness :
    mdUnique ((updateMarketData oracleA w0 "AAPL").1).marketDb ∧
    oracleA.quote ((updateMarketData oracleA w0 "AAPL").1).tick "AAPL"
      = some quoteA ∧
    mdCount ((updateMarketData oracleA
      ((updateMarketData oracleA w0 "AAPL").1) "AAPL").1).marketDb "AAPL" = 1 ∧
    ((updateMarketData oracleA ((updateMarketData oracleA w0 "AAPL").1)
        "AAPL").1).marketDb.length
      = ((updateMarketData oracleA w0 "AAPL").1).marketDb.length := by
  have h0 : mdUnique w0.marketDb := List.Pairwise.nil
  obtain ⟨_, hu1, hc1, _, _⟩ :=
    c4_market_upsert_unique oracleA w0 "AAPL" quoteA h0 rfl
  obtain ⟨_, _, hc2, hlen, _⟩ := c4_market_upsert_unique oracleA
    ((updateMarketData oracleA w0 "AAPL").1) "AAPL" quoteA hu1 rfl
  refine ⟨hu1, rfl, hc2, hlen ?_⟩
  decide

theorem toggleFavorite_none (O : Oracle) (st : W) (u s : String)
    (h : st.watchedDb.find? (watchKey u s) = none) :
    toggleFavorite O st u s = addWatchedAsset O st u s true none := by
  simp [toggleFavorite, h]

theorem toggleFavorite_some (O : Oracle) (st : W) (u s : String)
    (r0 : WatchedRow) (h : st.watchedDb.find? (watchKey u s) = some r0) :
    toggleFavorite O st u s =
      { st with watchedDb :=
          setFavRows st.watchedDb u s (!r0.isFavorite) st.time } := by
  simp [toggleFavorite, h]

/-- C5: `toggleFavorite` on a missing `(userId, symbol)` record creates
exactly one watch row, favorited; on an existing record it flips the flag
and bumps `updatedAt`, and a second toggle restores the original flag. -/
theorem c5_toggle_involution (O1 O2 : Oracle) (st : W) (u s : String)
    (h : wUnique st.watchedDb) :
    (st.watchedDb.find? (watchKey u s) = none →
      wCount (toggleFavorite O1 st u s).watchedDb u s = 1 ∧
      ∀ r ∈ (toggleFavorite O1 st u s).watchedDb, watchKey u s r = true →
        r.isFavorite = true) ∧
    (∀ r0, st.watchedDb.find? (watchKey u s) = some r0 →
      (∀ r ∈ (toggleFavorite O1 st u s).watchedDb, watchKey u s r = true →
        r.isFavorite = !r0.isFavorite ∧ r.updatedAt = st.time) ∧
      (∀ r ∈ (toggleFavorite O2 (toggleFavorite O1 st u s) u s).watchedDb,
        watchKey u s r = true → r.isFavorite = r0.isFavorite)) := by
  constructor
  · intro hnone
    rw [toggleFavorite_none O1 st u s hnone, addWatchedAsset_watchedDb]
    constructor
    · exact watchUpsert_count u s true none st.time h
    · intro r hr hk
      exact (watchUpsert_key_prop u s true none st.time r hr hk).1
  · intro r0 hsome
    rw [toggleFavorite_some O1 st u s r0 hsome]
    constructor
    · exact setFavRows_key_prop u s (!r0.isFavorite) st.time
    · have hfind1 := setFavRows_find? (!r0.isFavorite) st.time hsome
      rw [toggleFavorite_some O2 _ u s _ hfind1]
      intro r hr hk
      have := (setFavRows_key_prop u s _ _ r hr hk).1
      simpa [Bool.not_not] using this

/-- C5 witness: toggling the favorited row of the one-row watch world once
turns the flag off, toggling twice restores `isFavorite = true`. -/
theorem c5_witness :
    ({ watchRowA with isFavorite := false, updatedAt := 7 }).isFavorite
      = !watchRowA.isFavorite ∧
    ({ watchRowA with isFavorite := true, updatedAt := 7 }).isFavorite
      = watchRowA.isFavorite := by
  obtain ⟨_, h2⟩ := c5_toggle_involution oracleA oracleA wWatch "u1" "EQNR.OL"
    (List.pairwise_singleton _ _)
  obtain ⟨ha, hb⟩ := h2 watchRowA (by decide)
  exact ⟨(ha { watchRowA with isFavorite := false, updatedAt := 7 }
      (by decide) (by decide)).1,
    hb { watchRowA with isFavorite := true, updatedAt := 7 }
      (by decide) (by decide)⟩

theorem catalog_fields_nonempty :
    ∀ i ∈ allCatalogStocks, i.name ≠ "" ∧ i.sector ≠ "" := by
  decide

/-- C7 (counterexample): the claim's "NOK when the symbol carries the Oslo
suffix `.OL`, USD otherwise" is false — the source tests
`symbol.includes(".OL")`, a substring test, so the symbol "X.OLA", which
does NOT end in ".OL", is still stored with currency NOK after a failed
profile fetch. -/
theorem c7_counterexample :
    (updateMarketData oracleA w0 "X.OLA").2 = true ∧
    ((updateMarketData oracleA w0 "X.OLA").1).marketDb.map (·.currency)
      = ["NOK"] ∧
    sEndsWith "X.OLA" ".OL" = false := by
  decide

/-- C7 (amended): when the profile fetch fails and the quote fetch
succeeds, `updateMarketData` still succeeds; on a symbol not yet cached it
appends one record whose name falls back to the catalog name (else the
symbol itself), whose sector falls back to the catalog sector (else
"Unknown"), and whose currency defaults to NOK when the symbol CONTAINS
".OL" as a substring (not only as a suffix) and to USD otherwise. -/
theorem c7_profile_fallback (O : Oracle) (st : W) (s : String)
    (q : FinnhubQuote) (hq : O.quote st.tick s = some q)
    (hp : O.profile st.tick s = none)
    (habs : st.marketDb.any (fun r => r.symbol == s) = false) :
    (updateMarketData O st s).2 = true ∧
    ∃ r, ((updateMarketData O st s).1).marketDb = st.marketDb ++ [r] ∧
      r.symbol = s ∧
      r.name = (match stockInfoFind s with
        | some i => i.name
        | none => s) ∧
      r.sector = (match stockInfoFind s with
        | some i => i.sector
        | none => "Unknown") ∧
      r.currency = (if sIncludes s ".OL" then "NOK" else "USD") := by
  rw [updateMarketData_some O st s q hq]
  refine ⟨rfl, insertRow s q (O.profile st.tick s) (O.spark st.tick) st.time,
    ?_, rfl, ?_, ?_, ?_⟩
  · unfold upsertMarket
    rw [if_neg]
    rw [insertRow_symbol]
    simp [habs]
  · rw [hp]
    cases hfind : stockInfoFind s with
    | none => simp [insertRow, jsStr, hfind]
    | some i =>
      have hne := (catalog_fields_nonempty i (List.mem_of_find?_eq_some hfind)).1
      simp [insertRow, jsStr, hfind, hne]
  · rw [hp]
    cases hfind : stockInfoFind s with
    | none => simp [insertRow, jsStr, hfind]
    | some i =>
      have hne := (catalog_fields_nonempty i (List.mem_of_find?_eq_some hfind)).2
      simp [insertRow, jsStr, hfind, hne]
  · rw [hp]
    simp [insertRow, jsStr]

/-- C7 witness: the catalog symbol "EQNR.OL" with a failed profile fetch is
stored with the catalog name and sector and currency NOK. -/
theorem c7_witness :
    (updateMarketData oracleA w0 "EQNR.OL").2 = true ∧
    ((updateMarketData oracleA w0 "EQNR.OL").1).marketDb.map (·.name)
      = ["Equinor ASA"] ∧
    ((updateMarketData oracleA w0 "EQNR.OL").1).marketDb.map (·.sector)
      = ["Energy"] ∧
    ((updateMarketData oracleA w0 "EQNR.OL").1).marketDb.map (·.currency)
      = ["NOK"] := by
  obtain ⟨hok, r, hdb, _, hname, hsector, hcur⟩ :=
    c7_profile_fallback oracleA w0 "EQNR.OL" quoteA rfl rfl (by decide)
  refine ⟨hok, ?_, ?_, ?_⟩ <;> rw [hdb] <;> simp [w0]
  · rw [hname]; decide
  · rw [hsector]; decide
  · rw [hcur]; decide

theorem quoteCalls_pair (s : String) :
    quoteCalls [.quoteCall s, .profileCall s] s = 1 := by
  simp [quoteCalls]

theorem quoteCalls_delay (s : String) (ms : Nat) :
    quoteCalls [.delayMs ms] s = 0 := by
  simp [quoteCalls]

theorem initStep_fetch (O : Oracle) (st : W) (stock : StockInfo)
    (q : FinnhubQuote) (hsu : shouldUpdateB st stock.symbol = true)
    (hq : O.quote st.tick stock.symbol = some q) :
    initStep O st stock =
      { st with
          tick := st.tick + 1,
          time := st.time + 1100,
          trace := (st.trace ++ [.quoteCall stock.symbol,
            .profileCall stock.symbol]) ++ [.delayMs 1100],
          marketDb := upsertMarket st.marketDb
            (insertRow stock.symbol q (O.profile st.tick stock.symbol)
              (O.spark st.tick) st.time)
            (conflictUpdate q (O.spark st.tick) st.time) } := by
  simp [initStep, hsu, updateMarketData_some O st stock.symbol q hq, sleep1100]

/-- C3: if the cache already holds a row for the symbol that is younger
than the 5-minute staleness threshold, the per-symbol step of
`initializeExchangeData` is a complete no-op (no fetch, no delay, no
write); and a refresh step whose fetch succeeded issues exactly one quote
call and makes any replay of the step that carries the refreshed cache and
runs within the window a no-op — across both steps the symbol is fetched
exactly once. -/
theorem c3_staleness_window (O : Oracle) (st : W) (stock : StockInfo)
    (q : FinnhubQuote) :
    (∀ r, st.marketDb.find? (fun m => m.symbol == stock.symbol) = some r →
      st.time - r.lastUpdated < 5 * 60 * 1000 →
      initStep O st stock = st) ∧
    (O.quote st.tick stock.symbol = some q →
      shouldUpdateB st stock.symbol = true →
      quoteCalls (initStep O st stock).trace stock.symbol
        = quoteCalls st.trace stock.symbol + 1 ∧
      ∀ st2 : W, st2.marketDb = (initStep O st stock).marketDb →
        st2.time ≤ st.time + 5 * 60 * 1000 →
        initStep O st2 stock = st2) := by
  constructor
  · intro r hfind hfresh
    have hsu : shouldUpdateB st stock.symbol = false := by
      simp only [shouldUpdateB, hfind]
      simp only [decide_eq_false_iff_not]
      omega
    simp [initStep, hsu]
  · intro hq hsu
    have hstep := initStep_fetch O st stock q hsu hq
    constructor
    · rw [hstep]
      simp only [quoteCalls_append, quoteCalls_pair, quoteCalls_delay]
    · intro st2 hmdb ht2
      have hupd : ∀ r, (conflictUpdate q (O.spark st.tick) st.time r).symbol
          = r.symbol := conflictUpdate_symbol q (O.spark st.tick) st.time
      have hut : ∀ r,
          (conflictUpdate q (O.spark st.tick) st.time r).lastUpdated
            = st.time := fun _ => rfl
      obtain ⟨r', hfind, hlu⟩ := @upsertMarket_fresh_key st.marketDb
        (insertRow stock.symbol q (O.profile st.tick stock.symbol)
          (O.spark st.tick) st.time)
        (conflictUpdate q (O.spark st.tick) st.time) st.time stock.symbol
        hupd hut rfl
        (insertRow_symbol stock.symbol q (O.profile st.tick stock.symbol)
          (O.spark st.tick) st.time)
      have hmdb2 : st2.marketDb = upsertMarket st.marketDb
          (insertRow stock.symbol q (O.profile st.tick stock.symbol)
            (O.spark st.tick) st.time)
          (conflictUpdate q (O.spark st.tick) st.time) := by
        rw [hmdb, hstep]
      have hsu2 : shouldUpdateB st2 stock.symbol = false := by
        unfold shouldUpdateB
        rw [hmdb2, hfind]
        simp only [hlu, decide_eq_false_iff_not]
        omega
      simp [initStep, hsu2]

/-- C3 witness: a 100 ms old cached "EQNR.OL" row is skipped outright, and
a fresh fetch of "AAPL" is one quote call whose replay 5 seconds later
(same cache, later clock) is a no-op. -/
theorem c3_witness :
    initStep oracleA wFresh ⟨"EQNR.OL", "Equinor ASA", "Energy"⟩ = wFresh ∧
    quoteCalls (initStep oracleA w0
        ⟨"AAPL", "Apple Inc.", "Technology"⟩).trace "AAPL"
      = quoteCalls w0.trace "AAPL" + 1 ∧
    initStep oracleA
        { initStep oracleA w0 ⟨"AAPL", "Apple Inc.", "Technology"⟩ with
          time := 5000 } ⟨"AAPL", "Apple Inc.", "Technology"⟩
      = { initStep oracleA w0 ⟨"AAPL", "Apple Inc.", "Technology"⟩ with
          time := 5000 } := by
  obtain ⟨h1, _⟩ := c3_staleness_window oracleA wFresh
    ⟨"EQNR.OL", "Equinor ASA", "Energy"⟩ quoteA
  obtain ⟨_, h2⟩ := c3_staleness_window oracleA w0
    ⟨"AAPL", "Apple Inc.", "Technology"⟩ quoteA
  obtain ⟨ha, hb⟩ := h2 rfl (by decide)
  exact ⟨h1 (mkRow "EQNR.OL" 100) (by decide) (by decide), ha,
    hb { initStep oracleA w0 ⟨"AAPL", "Apple Inc.", "Technology"⟩ with
      time := 5000 } rfl (by decide)⟩

theorem norwegianStep_trace_mono (O : Oracle) (st : W) (stock : StockInfo) :
    ∀ e ∈ st.trace, e ∈ (norwegianStep O st stock).trace := by
  intro e he
  have htr := updateMarketData_trace O st stock.symbol
  by_cases hr : (updateMarketData O st stock.symbol).2 = true <;>
    simp [norwegianStep, hr, sleep1100, htr, he]

theorem norwegianStep_quote_mem (O : Oracle) (st : W) (stock : StockInfo) :
    NetEvent.quoteCall stock.symbol ∈ (norwegianStep O st stock).trace := by
  have htr := updateMarketData_trace O st stock.symbol
  by_cases hr : (updateMarketData O st stock.symbol).2 = true <;>
    simp [norwegianStep, hr, sleep1100, htr]

theorem foldl_norwegian_trace_mono (O : Oracle) (l : List StockInfo) :
    ∀ st : W, ∀ e ∈ st.trace, e ∈ (l.foldl (norwegianStep O) st).trace := by
  induction l with
  | nil => intro st e he; simpa using he
  | cons a tl ih =>
    intro st e he
    exact ih (norwegianStep O st a) e (norwegianStep_trace_mono O st a e he)

theorem foldl_norwegian_quote_mem (O : Oracle) (l : List StockInfo) :
    ∀ st : W, ∀ stock ∈ l,
      NetEvent.quoteCall stock.symbol ∈ (l.foldl (norwegianStep O) st).trace := by
  induction l with
  | nil => intro st stock h; cases h
  | cons a tl ih =>
    intro st stock hmem
    rcases List.mem_cons.1 hmem with rfl | hmem
    · exact foldl_norwegian_trace_mono O tl (norwegianStep O st stock) _
        (norwegianStep_quote_mem O st stock)
    · exact ih (norwegianStep O st a) stock hmem

theorem initStep_trace_mono (O : Oracle) (st : W) (stock : StockInfo) :
    ∀ e ∈ st.trace, e ∈ (initStep O st stock).trace := by
  intro e he
  have htr := updateMarketData_trace O st stock.symbol
  by_cases hsu : shouldUpdateB st stock.symbol = true
  · by_cases hr : (updateMarketData O st stock.symbol).2 = true <;>
      simp [initStep, hsu, hr, sleep1100, htr, he]
  · simp [initStep, hsu, he]

theorem foldl_initStep_trace_mono (O : Oracle) (l : List StockInfo) :
    ∀ st : W, ∀ e ∈ st.trace, e ∈ (l.foldl (initStep O) st).trace := by
  induction l with
  | nil => intro st e he; simpa using he
  | cons a tl ih =>
    intro st e he
    exact ih (initStep O st a) e (initStep_trace_mono O st a e he)

theorem initStep_failAll (O : Oracle) (st : W) (stock : StockInfo)
    (hO : ∀ k s2, O.quote k s2 = none) (hdb : st.marketDb = []) :
    initStep O st stock =
      { st with
          tick := st.tick + 1,
          trace := st.trace ++ [.quoteCall stock.symbol,
            .profileCall stock.symbol] } := by
  have hsu : shouldUpdateB st stock.symbol = true := by
    unfold shouldUpdateB
    rw [hdb]
    rfl
  simp [initStep, hsu,
    updateMarketData_none O st stock.symbol (hO st.tick stock.symbol)]

theorem foldl_initStep_failAll (O : Oracle)
    (hO : ∀ k s2, O.quote k s2 = none) (l : List StockInfo) :
    ∀ st : W, st.marketDb = [] →
      ∀ stock ∈ l,
        NetEvent.quoteCall stock.symbol ∈ (l.foldl (initStep O) st).trace := by
  induction l with
  | nil => intro st _ stock h; cases h
  | cons a tl ih =>
    intro st hdb stock hmem
    have hstep := initStep_failAll O st a hO hdb
    rcases List.mem_cons.1 hmem with rfl | hmem
    · have hq : NetEvent.quoteCall stock.symbol ∈ (initStep O st stock).trace := by
        rw [hstep]; simp
      exact foldl_initStep_trace_mono O tl (initStep O st stock) _ hq
    · have hdb' : (initStep O st a).marketDb = [] := by
        rw [hstep]; exact hdb
      exact ih (initStep O st a) hdb' stock hmem

/-- C8: batch initialization is partial-failure tolerant.  The batch
functions are total on the world — a per-symbol failure never escapes the
loop — and every symbol of the list is still attempted: every Oslo-catalog
symbol's quote call appears in the trace of `initializeNorwegianStocks`
whatever the oracle answers, and even under an oracle failing every fetch,
`initializeExchangeData` on a cataloged exchange still issues the quote
call of every one of its symbols. -/
theorem c8_partial_failure (O : Oracle) (st : W) :
    (∀ stock ∈ NORWEGIAN_STOCKS,
      NetEvent.quoteCall stock.symbol
        ∈ (initializeNorwegianStocks O st).trace) ∧
    (∀ e stocks, exchangeLookup e = some stocks →
      (∀ k s2, O.quote k s2 = none) → st.marketDb = [] →
      ∀ stock ∈ stocks,
        NetEvent.quoteCall stock.symbol
          ∈ (initializeExchangeData O st e).trace) := by
  constructor
  · intro stock hmem
    exact foldl_norwegian_quote_mem O NORWEGIAN_STOCKS st stock hmem
  · intro e stocks hlookup hO hdb stock hmem
    unfold initializeExchangeData
    rw [hlookup]
    exact foldl_initStep_failAll O hO stocks st hdb stock hmem

/-- C8 witness: under the all-failing oracle, the first Oslo symbol is
attempted by `initializeNorwegianStocks` and the last Oslo symbol is still
attempted by `initializeExchangeData` after seven failures before it. -/
theorem c8_witness :
    NetEvent.quoteCall "EQNR.OL"
      ∈ (initializeNorwegianStocks oracleFailAll w0).trace ∧
    NetEvent.quoteCall "STL.OL"
      ∈ (initializeExchangeData oracleFailAll w0 "OL").trace := by
  obtain ⟨h1, h2⟩ := c8_partial_failure oracleFailAll w0
  constructor
  · exact h1 ⟨"EQNR.OL", "Equinor ASA", "Energy"⟩ (by decide)
  · exact h2 "OL" NORWEGIAN_STOCKS (by decide) (fun _ _ => rfl) rfl
      ⟨"STL.OL", "Statoil ASA", "Energy"⟩ (by decide)

theorem norwegianStep_delay_succ (O : Oracle) (st : W) (stock : StockInfo)
    (hq : (O.quote st.tick stock.symbol).isSome = true) :
    delayCount (norwegianStep O st stock).trace = delayCount st.trace + 1 := by
  obtain ⟨q, hq'⟩ := Option.isSome_iff_exists.1 hq
  simp [norwegianStep, updateMarketData_some O st stock.symbol q hq',
    sleep1100, delayCount_append, delayCount]

theorem foldl_norwegian_delay (O : Oracle)
    (hO : ∀ k s2, (O.quote k s2).isSome = true) (l : List StockInfo) :
    ∀ st : W,
      delayCount ((l.foldl (norwegianStep O) st).trace)
        = delayCount st.trace + l.length := by
  induction l with
  | nil => intro st; simp
  | cons a tl ih =>
    intro st
    rw [List.foldl_cons, ih (norwegianStep O st a),
      norwegianStep_delay_succ O st a (hO st.tick a.symbol)]
    simp only [List.length_cons]
    omega

/-- C9 (counterexample): the claim's "at least (N-1) delays of 1100 ms"
fails when refreshes throw — the delay sits inside the `try`, so a failed
symbol skips it: with the first two quote calls failing, the 8-symbol Oslo
batch records only 6 delays, fewer than N-1 = 7. -/
theorem c9_counterexample :
    delayCount (initializeNorwegianStocks oracleFail2 w0).trace
      < NORWEGIAN_STOCKS.length - 1 := by
  decide

/-- C9 (amended): upstream calls are sequenced with an 1100 ms `setTimeout`
after each successful per-symbol refresh (a failed refresh skips its
delay); hence when every fetch succeeds, the N-symbol Oslo batch performs
exactly N delays of 1100 ms — in particular at least N-1. -/
theorem c9_rate_limit (O : Oracle) (st : W)
    (hO : ∀ k s2, (O.quote k s2).isSome = true) :
    delayCount (initializeNorwegianStocks O st).trace
      = delayCount st.trace + NORWEGIAN_STOCKS.length ∧
    NORWEGIAN_STOCKS.length - 1
      ≤ delayCount (initializeNorwegianStocks O st).trace := by
  unfold initializeNorwegianStocks
  have h := foldl_norwegian_delay O hO NORWEGIAN_STOCKS st
  constructor
  · exact h
  · rw [h]; omega

/-- C9 witness: the amended count on the all-success oracle from the empty
world. -/
theorem c9_witness :
    delayCount (initializeNorwegianStocks oracleA w0).trace
      = delayCount w0.trace + NORWEGIAN_STOCKS.length :=
  (c9_rate_limit oracleA w0 (fun _ _ => rfl)).1

end MarketService
